import Mathlib

set_option maxRecDepth 100000

/-!
# Verification of the DQN replay / update / exploration core (`DeepQResNet.py`)

This file gives a shallow embedding of the replay buffer, visit-count hash
table, trainer target computation and the two policy selectors of the `DQN`
class, and proves the frozen claims about them.

Modelling conventions:
* A board state is a `List (List Int)` (row-major 2-D grid of integer cells).
  `str` applied to a 1-D numpy integer row whose entries all render with the
  same width produces the bracketed, space-separated form `"[0 1 0]"`; this is
  captured by `numpyRowStr`.
* Python floats are modelled as `ℚ` where only field arithmetic occurs, and as
  `ℝ` where `sqrt`/`log` occur (the UCT bonus).
* The MD5 digest used by `_Gethash` is implemented bit-faithfully over `Nat`
  (RFC 1321), producing the lowercase hex digest string.
* The neural networks are opaque function approximators (spec §1, §6): they
  are parameters `W → State → Int → List ℚ` (per-sample `predict`), and the
  gradient step is an opaque parameter `fit`.
* Randomness (`random.sample`, `random.choice`) is passed in explicitly: the
  sampled index list is an argument constrained by the hypotheses that
  `random.sample` guarantees (distinct, in range, of the requested length),
  and `random.choice seq` is modelled as `seq[r % len(seq)]` for an external
  draw `r`.
-/

/-! ## MD5 (RFC 1321) over `Nat`, used by `_Gethash` -/

/-- The 64 MD5 sine-derived constants `K[i] = floor(|sin(i+1)| * 2^32)`. -/
def md5K : List Nat :=
  [3614090360, 3905402710, 606105819, 3250441966, 4118548399, 1200080426,
   2821735955, 4249261313, 1770035416, 2336552879, 4294925233, 2304563134,
   1804603682, 4254626195, 2792965006, 1236535329, 4129170786, 3225465664,
   643717713, 3921069994, 3593408605, 38016083, 3634488961, 3889429448,
   568446438, 3275163606, 4107603335, 1163531501, 2850285829, 4243563512,
   1735328473, 2368359562, 4294588738, 2272392833, 1839030562, 4259657740,
   2763975236, 1272893353, 4139469664, 3200236656, 681279174, 3936430074,
   3572445317, 76029189, 3654602809, 3873151461, 530742520, 3299628645,
   4096336452, 1126891415, 2878612391, 4237533241, 1700485571, 2399980690,
   4293915773, 2240044497, 1873313359, 4264355552, 2734768916, 1309151649,
   4149444226, 3174756917, 718787259, 3951481745]

/-- The 64 per-round left-rotation amounts of MD5. -/
def md5S : List Nat :=
  [7, 12, 17, 22, 7, 12, 17, 22, 7, 12, 17, 22, 7, 12, 17, 22,
   5, 9, 14, 20, 5, 9, 14, 20, 5, 9, 14, 20, 5, 9, 14, 20,
   4, 11, 16, 23, 4, 11, 16, 23, 4, 11, 16, 23, 4, 11, 16, 23,
   6, 10, 15, 21, 6, 10, 15, 21, 6, 10, 15, 21, 6, 10, 15, 21]

/-- 32-bit left rotation. -/
def rotl32 (x s : Nat) : Nat :=
  ((x <<< s) ||| (x >>> (32 - s))) % 4294967296

/-- One MD5 round: round index `i`, message words `M`, state `(a,b,c,d)`. -/
def md5Round (M : List Nat) (st : Nat × Nat × Nat × Nat) (i : Nat) :
    Nat × Nat × Nat × Nat :=
  let a := st.1
  let b := st.2.1
  let c := st.2.2.1
  let d := st.2.2.2
  let fg : Nat × Nat :=
    if i < 16 then ((b &&& c) ||| ((b ^^^ 4294967295) &&& d), i)
    else if i < 32 then ((d &&& b) ||| ((d ^^^ 4294967295) &&& c), (5 * i + 1) % 16)
    else if i < 48 then (b ^^^ c ^^^ d, (3 * i + 5) % 16)
    else (c ^^^ (b ||| (d ^^^ 4294967295)), (7 * i) % 16)
  let f := (fg.1 + a + md5K.getD i 0 + M.getD fg.2 0) % 4294967296
  (d, (b + rotl32 f (md5S.getD i 0)) % 4294967296, b, c)

/-- Process one 16-word block, updating the running MD5 state. -/
def md5Chunk (st : Nat × Nat × Nat × Nat) (M : List Nat) :
    Nat × Nat × Nat × Nat :=
  let r := (List.range 64).foldl (md5Round M) st
  ((st.1 + r.1) % 4294967296, (st.2.1 + r.2.1) % 4294967296,
   (st.2.2.1 + r.2.2.1) % 4294967296, (st.2.2.2 + r.2.2.2) % 4294967296)

/-- `count` little-endian bytes of `n`. -/
def leBytes (n count : Nat) : List Nat :=
  (List.range count).map (fun i => (n >>> (8 * i)) % 256)

/-- MD5 padding: append `0x80`, zero bytes to 56 mod 64, then the 64-bit
little-endian bit length. -/
def md5Pad (msg : List Nat) : List Nat :=
  msg ++ [128] ++ List.replicate ((119 - msg.length % 64) % 64) 0 ++
    leBytes (8 * msg.length) 8

/-- Group bytes into 32-bit little-endian words. -/
def bytesToWords : List Nat → List Nat
  | b0 :: b1 :: b2 :: b3 :: rest =>
      (b0 + 256 * b1 + 65536 * b2 + 16777216 * b3) :: bytesToWords rest
  | _ => []

/-- Split a word list into 16-word blocks. -/
def chunks16 (l : List Nat) : List (List Nat) :=
  (List.range ((l.length + 15) / 16)).map (fun i => (l.drop (16 * i)).take 16)

/-- Lowercase hex digit. -/
def hexDigitChar (n : Nat) : Char :=
  "0123456789abcdef".toList.getD n '0'

/-- Two lowercase hex digits of a byte. -/
def byteHex (b : Nat) : String :=
  String.mk [hexDigitChar (b / 16), hexDigitChar (b % 16)]

/-- Hex rendering of a 32-bit word, little-endian byte order (as in
`hexdigest`). -/
def wordHexLE (w : Nat) : String :=
  byteHex (w % 256) ++ byteHex (w / 256 % 256) ++ byteHex (w / 65536 % 256) ++
    byteHex (w / 16777216 % 256)

/-- Full MD5 of a byte list, as the 32-character lowercase hex digest. -/
def md5hexBytes (msg : List Nat) : String :=
  let blocks := chunks16 (bytesToWords (md5Pad msg))
  let r := blocks.foldl md5Chunk (1732584193, 4023233417, 2562383102, 271733878)
  wordHexLE r.1 ++ wordHexLE r.2.1 ++ wordHexLE r.2.2.1 ++ wordHexLE r.2.2.2

/-- `hashlib.md5(s.encode()).hexdigest()` for an ASCII string `s`. -/
def md5hex (s : String) : String :=
  md5hexBytes (s.data.map Char.toNat)

/-! ## State serialization and fingerprint (`_Gethash`) -/

/-- A board state: row-major 2-D grid of integer cells. -/
abbrev GameState := List (List Int)

/-- `str(row)` for a 1-D numpy integer array whose entries all render with the
same character width: bracketed, single-space-separated cell renderings. -/
def numpyRowStr (row : List Int) : String :=
  "[" ++ String.intercalate " " (row.map toString) ++ "]"

/-- `''.join(map(str, state))` for a 2-D `state`: iteration yields the rows,
so the row renderings are concatenated with no additional separator. -/
def combinedString (state : GameState) : String :=
  String.join (state.map numpyRowStr)

/-- `DQN._Gethash`: MD5 hex digest of `combinedString`. -/
def Gethash (state : GameState) : String :=
  md5hex (combinedString state)

/-- The serialization claimed by the spec (§4.1): each individual cell
converted to its string form and concatenated in row-major order with no
separators. -/
def specCellConcat (state : GameState) : String :=
  String.join (state.map (fun row => String.join (row.map toString)))

/-- The amended serialization: the string forms of the rows (numpy bracketed
rendering), concatenated in row order with no additional separators, written
as a left fold. -/
def amendedSerial (state : GameState) : String :=
  state.foldl (fun acc row => acc ++ numpyRowStr row) ""

/-! ## Visit-count hash table (`hashtable`, `GetCount`, `_InsertHashTable`) -/

/-- One bucket: a dict from fingerprint to count, as an association list in
insertion order. -/
abbrev Bucket := List (String × Nat)

/-- The 15x15 grid of buckets. -/
abbrev HashGrid := List (List Bucket)

/-- `[[{} for _ in range(15)] for _ in range(15)]`. -/
def initHashtable : HashGrid :=
  List.replicate 15 (List.replicate 15 ([] : Bucket))

/-- Value of a lowercase hex digit character. -/
def hexVal (c : Char) : Nat :=
  if 97 ≤ c.toNat then c.toNat - 87 else c.toNat - 48

/-- `int(s, 16)` for a lowercase hex string. -/
def parseHex (s : String) : Nat :=
  s.data.foldl (fun acc c => 16 * acc + hexVal c) 0

/-- Bucket row of a fingerprint: `int(hash_value[:len//2], 16) % 10`. -/
def rowOf (hash_value : String) : Nat :=
  parseHex (String.mk (hash_value.data.take (hash_value.length / 2))) % 10

/-- Bucket column of a fingerprint: `int(hash_value[len//2:], 16) % 10`. -/
def colOf (hash_value : String) : Nat :=
  parseHex (String.mk (hash_value.data.drop (hash_value.length / 2))) % 10

/-- `self.hashtable[row][col]` (out-of-range reads default to an empty
bucket; all actual reads are in range, see the claim on bucket bounds). -/
def bucketAt (t : HashGrid) (row col : Nat) : Bucket :=
  (t.getD row []).getD col []

/-- Dict read with absence meaning 0:
`0 if hash_value not in d else d[hash_value]`. -/
def countInBucket (b : Bucket) (hash_value : String) : Nat :=
  match b.lookup hash_value with
  | none => 0
  | some n => n

/-- `DQN.GetCount`. -/
def GetCount (t : HashGrid) (state : GameState) : Nat :=
  let hash_value := Gethash state
  let row := rowOf hash_value
  let col := colOf hash_value
  countInBucket (bucketAt t row col) hash_value

/-- Dict update `d[h] = 1` if absent else `d[h] += 1`, new keys appended at
the end (python dict insertion order). -/
def bucketIncr : Bucket → String → Bucket
  | [], h => [(h, 1)]
  | (k, v) :: rest, h =>
      if k = h then (k, v + 1) :: rest else (k, v) :: bucketIncr rest h

/-- `DQN._InsertHashTable`. -/
def InsertHashTable (t : HashGrid) (state : GameState) : HashGrid :=
  let hash_value := Gethash state
  let row := rowOf hash_value
  let col := colOf hash_value
  t.set row ((t.getD row []).set col (bucketIncr (bucketAt t row col) hash_value))

/-! ## Transition records, the agent state, and the replay buffer -/

/-- One transition record
`[state, action, reward, next_states, done, valid_actions, turns]`. -/
structure Transition where
  state : GameState
  action : Nat
  reward : ℚ
  next_state : GameState
  done : Bool
  valid_actions : List Nat
  turn : Int
deriving DecidableEq, Inhabited

/-- The mutable attributes of a `DQN` instance that the claims are about.
`W` is the opaque type of network parameter snapshots; `modelW` is the online
network and `targetW` the target network. -/
structure DQN (W : Type) where
  batch_size : Nat
  gamma : ℚ
  maxBufferSize : Nat
  hashtable : HashGrid
  replay_buffer : List Transition
  modelW : W
  targetW : W
deriving DecidableEq, Inhabited

/-- `DQN.InsertBuffer`: pop the front when the current length strictly
exceeds `maxBufferSize`, then append. -/
def InsertBuffer {W : Type} (dqn : DQN W) (tr : Transition) : DQN W :=
  let buf := if dqn.maxBufferSize < dqn.replay_buffer.length
    then dqn.replay_buffer.tail else dqn.replay_buffer
  { dqn with replay_buffer := buf ++ [tr] }

/-! ## numpy reductions used by the trainer and the policies -/

/-- `np.amax` of a nonempty vector (the empty case never occurs in the
verified uses; it is given a junk value). -/
def np_amax (l : List ℚ) : ℚ :=
  match l with
  | [] => 0
  | x :: xs => xs.foldl max x

/-- `np.argmax`: index of the first occurrence of the maximum. -/
def np_argmax {α : Type} [LinearOrder α] : List α → Nat
  | [] => 0
  | x :: xs => if x < xs.getD (np_argmax xs) x then np_argmax xs + 1 else 0

/-! ## Trainer (`DQN.train`) -/

/-- `minibatch = [self.replay_buffer[i] for i in minibatch_indices]`. -/
def minibatchOf {W : Type} (dqn : DQN W) (minibatch_indices : List Nat) :
    List Transition :=
  minibatch_indices.map (fun i => dqn.replay_buffer.getD i default)

/-- One row of the training target: start from the online prediction and
overwrite the acted-on slot with `reward/100.0` when done, else with
`reward/100.0 + gamma * np.amax(Qvalue[valid_actions])`. -/
def bellmanTarget (gamma : ℚ) (predRow bootRow : List ℚ) (tr : Transition) :
    List ℚ :=
  if tr.done then predRow.set tr.action (tr.reward / 100)
  else predRow.set tr.action
    (tr.reward / 100 +
      gamma * np_amax (tr.valid_actions.map (fun a => bootRow.getD a 0)))

/-- The target matrix of a training step: `target = model.predict(states,
turns)` row-overwritten as above, with `Qvalue = target_model.predict(
next_states, turns)` — note the bootstrap rows reuse the transitions' own
`turn` values. -/
def trainTargets {W : Type} (predict : W → GameState → Int → List ℚ)
    (dqn : DQN W) (minibatch : List Transition) : List (List ℚ) :=
  minibatch.map (fun tr =>
    bellmanTarget dqn.gamma (predict dqn.modelW tr.state tr.turn)
      (predict dqn.targetW tr.next_state tr.turn) tr)

/-- `sorted(minibatch_indices, reverse=True)`. -/
def sortDescend (l : List Nat) : List Nat :=
  l.insertionSort (fun a b => b ≤ a)

/-- `for index in sorted(minibatch_indices, reverse=True):
del self.replay_buffer[index]`. -/
def deleteIndices (buf : List Transition) (idxs : List Nat) : List Transition :=
  (sortDescend idxs).foldl (fun b i => b.eraseIdx i) buf

/-- Specification-side description of destructive sampling: the transitions
whose index was not sampled, in their original relative order. -/
def keepOut (b : List Transition) (idxs : List Nat) : List Transition :=
  ((List.range b.length).filter (fun i => decide (i ∉ idxs))).map
    (fun i => b.getD i default)

/-- `DQN.train`. `predict` is the opaque per-sample forward pass of a network
snapshot, `fit` the opaque `train_on_batch` gradient step returning the new
online parameters and the scalar loss, and `minibatch_indices` the draw of
`random.sample(range(len(buffer)), batch_size)`. -/
def train {W : Type} (predict : W → GameState → Int → List ℚ)
    (fit : W → List Transition → List (List ℚ) → W × ℚ)
    (dqn : DQN W) (minibatch_indices : List Nat) : DQN W × Option ℚ :=
  if dqn.replay_buffer.length < dqn.batch_size then (dqn, none)
  else
    let minibatch := minibatchOf dqn minibatch_indices
    let target := trainTargets predict dqn minibatch
    let ht := minibatch.foldl (fun t tr => InsertHashTable t tr.state) dqn.hashtable
    let wl := fit dqn.modelW minibatch target
    let buf := deleteIndices dqn.replay_buffer minibatch_indices
    ({ dqn with modelW := wl.1, hashtable := ht, replay_buffer := buf }, some wl.2)

/-! ## Policy selectors -/

/-- `DQN.EstimatePolicy`: boolean-mask the full q-vector at the valid
actions (mask compression yields the kept values in index order), then index
`valid_action` with the argmax position of the compressed vector. -/
def EstimatePolicy (tnet : GameState → Int → List ℚ) (state : GameState)
    (turn : Int) (valid_action : List Nat) : Nat :=
  let q_values := tnet state turn
  let masked := ((List.range q_values.length).filter
      (fun i => valid_action.contains i)).map (fun i => q_values.getD i 0)
  valid_action.getD (np_argmax masked) 0

/-- `DQN.BehaviorPolicy`: q-values fancy-indexed at the valid actions, visit
counts of the simulated next states; uniform choice (`random.choice`,
modelled by the external draw `r`) when the total count is zero, else the
valid action at the argmax of the UCT scores. -/
noncomputable def BehaviorPolicy (tnet : GameState → Int → List ℝ)
    (simulateNextState : Nat → GameState) (t : HashGrid) (state : GameState)
    (turn : Int) (valid_action : List Nat) (r : Nat) : Nat :=
  let fullq := tnet state turn
  let q_values := valid_action.map (fun a => fullq.getD a 0)
  let count := valid_action.map (fun a => GetCount t (simulateNextState a))
  if count.sum = 0 then
    valid_action.getD (r % valid_action.length) 0
  else
    let uct_values := (List.range valid_action.length).map (fun i =>
      q_values.getD i 0 +
        Real.sqrt (2 * Real.log (count.sum : ℝ) / (1 + (count.getD i 0 : ℝ))))
    valid_action.getD (np_argmax uct_values) 0

/-- The UCT score of the `m`-th legal action during behavior-policy
selection: its value estimate plus `sqrt(2 * ln(total_count) / (1 + count))`. -/
noncomputable def uctScore (tnet : GameState → Int → List ℝ)
    (simulateNextState : Nat → GameState) (t : HashGrid) (state : GameState)
    (turn : Int) (valid_action : List Nat) (m : Nat) : ℝ :=
  (tnet state turn).getD (valid_action.getD m 0) 0 +
    Real.sqrt (2 * Real.log
        (((valid_action.map (fun a => GetCount t (simulateNextState a))).sum : ℝ)) /
      (1 + (GetCount t (simulateNextState (valid_action.getD m 0)) : ℝ)))

/-- A fixed network output used as a concrete test vector: the value vector
`[0.1, 0.9, 0.3]` regardless of state and turn. -/
def cexNet : GameState → Int → List ℚ :=
  fun _ _ => [1 / 10, 9 / 10, 3 / 10]

/-- Well-formedness of the bucket grid: it is a 15-element list of 15-element
rows, as built by `initHashtable` and preserved by `_InsertHashTable`. -/
def WFGrid (t : HashGrid) : Prop :=
  t.length = 15 ∧ ∀ row ∈ t, row.length = 15

/-! ## Concrete validation of the embedding -/

theorem md5hex_rfc_vectors :
    md5hex "" = "d41d8cd98f00b204e9800998ecf8427e" ∧
    md5hex "abc" = "900150983cd24fb0d6963f7d28e17f72" := by
  constructor <;> decide

theorem serialization_sample :
    combinedString (List.replicate 8 [0, 1, 0, 1, 0, 1, 0, 1]) =
      "[0 1 0 1 0 1 0 1][0 1 0 1 0 1 0 1][0 1 0 1 0 1 0 1][0 1 0 1 0 1 0 1][0 1 0 1 0 1 0 1][0 1 0 1 0 1 0 1][0 1 0 1 0 1 0 1][0 1 0 1 0 1 0 1]" ∧
    Gethash (List.replicate 8 [0, 1, 0, 1, 0, 1, 0, 1]) =
      "f04bd303a3e3ab752b93861033029307" ∧
    md5hex (specCellConcat (List.replicate 8 [0, 1, 0, 1, 0, 1, 0, 1])) =
      "45243bb6b3ded04513ffd39772dae62c" := by
  refine ⟨by decide, by decide, by decide⟩

theorem getCount_sample :
    GetCount initHashtable [[0]] = 0 ∧
    GetCount (InsertHashTable (InsertHashTable initHashtable [[0]]) [[0]])
      [[0]] = 2 := by
  constructor <;> decide

/-! ## Helper lemmas: list indexing -/

theorem list_getD_set_self {α : Type} (l : List α) (i : Nat) (a d : α)
    (h : i < l.length) : (l.set i a).getD i d = a := by
  rw [List.getD_eq_getD_get?, List.get?_set_eq_of_lt a h]
  rfl

theorem list_getD_set_ne {α : Type} (l : List α) {i j : Nat} (a d : α)
    (h : i ≠ j) : (l.set i a).getD j d = l.getD j d := by
  rw [List.getD_eq_getD_get?, List.get?_set_ne a l h, ← List.getD_eq_getD_get?]

theorem list_map_getD_range {α : Type} (l : List α) (d : α) :
    (List.range l.length).map (fun i => l.getD i d) = l := by
  induction l with
  | nil => rfl
  | cons x xs ih =>
      rw [List.length_cons, List.range_succ_eq_map, List.map_cons, List.map_map]
      simp only [Function.comp_def, List.getD_cons_zero, List.getD_cons_succ]
      exact congrArg (x :: ·) ih

/-! ## Helper lemmas: `np_amax` and `np_argmax` -/

theorem foldl_max_spec (xs : List ℚ) : ∀ x : ℚ,
    xs.foldl max x ∈ x :: xs ∧ x ≤ xs.foldl max x ∧
      ∀ y ∈ xs, y ≤ xs.foldl max x := by
  induction xs with
  | nil => intro x; simp
  | cons y ys ih =>
      intro x
      obtain ⟨hmem, hle, hall⟩ := ih (max x y)
      refine ⟨?_, ?_, ?_⟩
      · rw [List.foldl_cons]
        rcases List.mem_cons.mp hmem with h | h
        · rcases max_choice x y with hc | hc
          · rw [h, hc]; exact List.mem_cons_self _ _
          · rw [h, hc]; exact List.mem_cons_of_mem _ (List.mem_cons_self _ _)
        · exact List.mem_cons_of_mem _ (List.mem_cons_of_mem _ h)
      · rw [List.foldl_cons]
        exact le_trans (le_max_left x y) hle
      · intro z hz
        rw [List.foldl_cons]
        rcases List.mem_cons.mp hz with h | h
        · rw [h]; exact le_trans (le_max_right x y) hle
        · exact hall z h

theorem np_amax_spec (l : List ℚ) (h : l ≠ []) :
    np_amax l ∈ l ∧ ∀ y ∈ l, y ≤ np_amax l := by
  match l with
  | [] => exact absurd rfl h
  | x :: xs =>
      obtain ⟨hmem, hle, hall⟩ := foldl_max_spec xs x
      refine ⟨hmem, ?_⟩
      intro y hy
      rcases List.mem_cons.mp hy with hh | hh
      · exact hh ▸ hle
      · exact hall y hh

theorem np_argmax_spec {α : Type} [LinearOrder α] (l : List α) (d : α)
    (h : l ≠ []) :
    np_argmax l < l.length ∧
      (∀ k < l.length, l.getD k d ≤ l.getD (np_argmax l) d) ∧
      ∀ k < np_argmax l, l.getD k d < l.getD (np_argmax l) d := by
  induction l with
  | nil => exact absurd rfl h
  | cons x xs ih =>
      by_cases hxs : xs = []
      · subst hxs
        refine ⟨by simp [np_argmax], ?_, ?_⟩
        · intro k hk
          have hk0 : k = 0 := by simpa using Nat.lt_one_iff.mp (by simpa using hk)
          subst hk0
          simp [np_argmax]
        · intro k hk
          simp only [np_argmax] at hk
          simp at hk
      · obtain ⟨h1, h2, h3⟩ := ih hxs
        have key : xs.getD (np_argmax xs) x = xs.getD (np_argmax xs) d := by
          rw [List.getD_eq_getElem _ _ h1, List.getD_eq_getElem _ _ h1]
        by_cases hlt : x < xs.getD (np_argmax xs) x
        · have hres : np_argmax (x :: xs) = np_argmax xs + 1 := by
            simp only [np_argmax]
            rw [if_pos hlt]
          rw [hres]
          refine ⟨by simp only [List.length_cons]; exact Nat.succ_lt_succ h1, ?_, ?_⟩
          · intro k hk
            cases k with
            | zero =>
                simp only [List.getD_cons_zero, List.getD_cons_succ]
                exact le_of_lt (key ▸ hlt)
            | succ k =>
                simp only [List.getD_cons_succ]
                exact h2 k (by simpa using hk)
          · intro k hk
            cases k with
            | zero =>
                simp only [List.getD_cons_zero, List.getD_cons_succ]
                exact key ▸ hlt
            | succ k =>
                simp only [List.getD_cons_succ]
                exact h3 k (by omega)
        · have hres : np_argmax (x :: xs) = 0 := by
            simp only [np_argmax]
            rw [if_neg hlt]
          rw [hres]
          refine ⟨Nat.succ_pos _, ?_, ?_⟩
          · intro k hk
            cases k with
            | zero => simp
            | succ k =>
                simp only [List.getD_cons_succ, List.getD_cons_zero]
                exact le_trans (h2 k (by simpa using hk)) (key ▸ le_of_not_lt hlt)
          · intro k hk
            exact absurd hk (Nat.not_lt_zero k)

/-! ## Helper lemmas: visit-count table -/

theorem countInBucket_nil (h : String) : countInBucket [] h = 0 := rfl

theorem countInBucket_cons (k : String) (v : Nat) (rest : Bucket) (h : String) :
    countInBucket ((k, v) :: rest) h =
      if k = h then v else countInBucket rest h := by
  simp only [countInBucket, List.lookup]
  by_cases hk : k = h
  · subst hk; simp
  · have hb : (h == k) = false := by simpa using Ne.symm hk
    simp [hb, hk]

theorem countInBucket_bucketIncr (b : Bucket) (h1 h2 : String) :
    countInBucket (bucketIncr b h1) h2 =
      countInBucket b h2 + if h1 = h2 then 1 else 0 := by
  induction b with
  | nil =>
      simp only [bucketIncr, countInBucket_cons, countInBucket_nil]
      by_cases h : h1 = h2 <;> simp [h]
  | cons kv rest ih =>
      obtain ⟨k, v⟩ := kv
      by_cases hk : k = h1
      · subst hk
        simp only [bucketIncr, if_pos rfl]
        by_cases h : k = h2 <;> simp [countInBucket_cons, h]
      · simp only [bucketIncr, if_neg hk, countInBucket_cons]
        by_cases h : k = h2
        · rw [if_pos h, if_pos h]
          have hne : h1 ≠ h2 := fun hh => hk (by rw [h, hh])
          rw [if_neg hne]
          omega
        · rw [if_neg h, if_neg h, ih]

theorem rowOf_lt (h : String) : rowOf h < 10 :=
  Nat.mod_lt _ (by norm_num)

theorem colOf_lt (h : String) : colOf h < 10 :=
  Nat.mod_lt _ (by norm_num)

theorem WFGrid_init : WFGrid initHashtable := by
  constructor
  · simp [initHashtable]
  · intro row hrow
    rw [List.eq_of_mem_replicate hrow]
    simp

theorem WFGrid_row_len (t : HashGrid) (hWF : WFGrid t) (r : Nat)
    (hr : r < t.length) : (t.getD r []).length = 15 := by
  rw [List.getD_eq_getElem _ _ hr]
  exact hWF.2 _ (List.getElem_mem hr)

theorem WFGrid_insert (t : HashGrid) (hWF : WFGrid t) (s : GameState) :
    WFGrid (InsertHashTable t s) := by
  obtain ⟨hlen, hrows⟩ := hWF
  constructor
  · simp [InsertHashTable, hlen]
  · intro row hrow
    rcases List.mem_or_eq_of_mem_set hrow with h | h
    · exact hrows row h
    · subst h
      rw [List.length_set]
      exact WFGrid_row_len t ⟨hlen, hrows⟩ _ (by rw [hlen]; exact lt_trans (rowOf_lt _) (by norm_num))

theorem list_getD_replicate_lt {α : Type} (n i : Nat) (a d : α) (h : i < n) :
    (List.replicate n a).getD i d = a := by
  induction n generalizing i with
  | zero => omega
  | succ n ih =>
      cases i with
      | zero => simp [List.replicate_succ]
      | succ i =>
          rw [List.replicate_succ, List.getD_cons_succ]
          exact ih i (by omega)

theorem bucketAt_init (r c : Nat) : bucketAt initHashtable r c = [] := by
  unfold bucketAt initHashtable
  rcases Nat.lt_or_ge r 15 with hr | hr
  · have h1 : (List.replicate 15 (List.replicate 15 ([] : Bucket))).getD r [] =
        List.replicate 15 ([] : Bucket) := list_getD_replicate_lt 15 r _ _ hr
    rw [h1]
    rcases Nat.lt_or_ge c 15 with hc | hc
    · exact list_getD_replicate_lt 15 c _ _ hc
    · exact List.getD_eq_default _ _ (by simpa using hc)
  · have h1 : (List.replicate 15 (List.replicate 15 ([] : Bucket))).getD r [] =
        [] := List.getD_eq_default _ _ (by simpa using hr)
    rw [h1]
    exact List.getD_eq_default _ _ (by simp)

theorem bucketAt_InsertHashTable (t : HashGrid) (hWF : WFGrid t)
    (s : GameState) (r c : Nat) :
    bucketAt (InsertHashTable t s) r c =
      if rowOf (Gethash s) = r ∧ colOf (Gethash s) = c then
        bucketIncr (bucketAt t r c) (Gethash s)
      else bucketAt t r c := by
  have hrlen : rowOf (Gethash s) < t.length := by
    rw [hWF.1]; exact lt_trans (rowOf_lt _) (by norm_num)
  have hclen : colOf (Gethash s) < (t.getD (rowOf (Gethash s)) []).length := by
    rw [WFGrid_row_len t hWF _ hrlen]
    exact lt_trans (colOf_lt _) (by norm_num)
  by_cases hr : rowOf (Gethash s) = r
  · subst hr
    by_cases hc : colOf (Gethash s) = c
    · subst hc
      rw [if_pos ⟨rfl, rfl⟩]
      simp only [InsertHashTable, bucketAt]
      rw [list_getD_set_self _ _ _ _ hrlen, list_getD_set_self _ _ _ _ hclen]
    · rw [if_neg (by tauto)]
      simp only [InsertHashTable, bucketAt]
      rw [list_getD_set_self _ _ _ _ hrlen, list_getD_set_ne _ _ _ hc]
  · rw [if_neg (by tauto)]
    simp only [InsertHashTable, bucketAt]
    rw [list_getD_set_ne _ _ _ hr]

theorem GetCount_InsertHashTable (t : HashGrid) (hWF : WFGrid t)
    (s' s : GameState) :
    GetCount (InsertHashTable t s') s =
      GetCount t s + if Gethash s' = Gethash s then 1 else 0 := by
  simp only [GetCount]
  rw [bucketAt_InsertHashTable t hWF s']
  by_cases heq : Gethash s' = Gethash s
  · rw [heq, if_pos ⟨rfl, rfl⟩, countInBucket_bucketIncr, if_pos rfl]
  · rw [if_neg heq]
    by_cases hb : rowOf (Gethash s') = rowOf (Gethash s) ∧
        colOf (Gethash s') = colOf (Gethash s)
    · rw [if_pos hb, countInBucket_bucketIncr, if_neg heq]
    · rw [if_neg hb]
      omega

theorem GetCount_foldl (l : List GameState) : ∀ t : HashGrid, WFGrid t →
    ∀ s : GameState,
      GetCount (l.foldl InsertHashTable t) s =
        GetCount t s +
          (l.filter (fun s' => Gethash s' == Gethash s)).length := by
  induction l with
  | nil => intro t _ s; simp
  | cons s'' rest ih =>
      intro t hWF s
      rw [List.foldl_cons, ih _ (WFGrid_insert t hWF s''),
        GetCount_InsertHashTable t hWF s'' s]
      by_cases h : Gethash s'' = Gethash s
      · rw [if_pos h]
        rw [List.filter_cons_of_pos (by simpa using h), List.length_cons]
        omega
      · rw [if_neg h]
        rw [List.filter_cons_of_neg (by simpa using h)]
        omega

theorem GetCount_init (s : GameState) : GetCount initHashtable s = 0 := by
  simp only [GetCount, bucketAt_init, countInBucket, List.lookup]

/-! ## Helper lemmas: descending-order deletion from the buffer -/

theorem keepOut_nil (b : List Transition) : keepOut b [] = b := by
  unfold keepOut
  rw [List.filter_eq_self.mpr (by intro a _; simp)]
  exact list_map_getD_range b default

theorem keepOut_cons_erase (b : List Transition) (d : Nat) (rest : List Nat)
    (hd : d < b.length) (hrest : ∀ i ∈ rest, i < d) :
    keepOut (b.eraseIdx d) rest = keepOut b (d :: rest) := by
  have hlen1 : (b.eraseIdx d).length = b.length - 1 := by
    rw [List.length_eraseIdx]; simp [hd]
  have hlenTake : (b.take d).length = d := by
    rw [List.length_take]; omega
  obtain ⟨k, hk⟩ : ∃ k, k = b.length - 1 - d := ⟨_, rfl⟩
  have hsplitL : (b.eraseIdx d).length = d + k := by omega
  have hsplitR : b.length = (d + 1) + k := by omega
  have hfront : ((List.range d).filter (fun i => decide (i ∉ d :: rest))).map
      (fun i => b.getD i default) =
      ((List.range d).filter (fun i => decide (i ∉ rest))).map
      (fun i => (b.eraseIdx d).getD i default) := by
    have hfilter : (List.range d).filter (fun i => decide (i ∉ d :: rest)) =
        (List.range d).filter (fun i => decide (i ∉ rest)) := by
      apply List.filter_congr
      intro i hi
      have hne : i ≠ d := Nat.ne_of_lt (List.mem_range.mp hi)
      simp [List.mem_cons, hne]
    rw [hfilter]
    apply List.map_congr_left
    intro i hi
    have hid : i < d := List.mem_range.mp (List.mem_of_mem_filter hi)
    have e1 : (b.eraseIdx d).getD i default = (b.take d).getD i default := by
      rw [List.eraseIdx_eq_take_drop_succ]
      exact List.getD_append _ _ _ _ (by omega)
    have e2 : (b.take d).getD i default = b.getD i default := by
      rw [List.getD_eq_getElem _ _ (show i < (b.take d).length by omega),
        List.getD_eq_getElem _ _ (show i < b.length by omega),
        List.getElem_take]
    rw [e1, e2]
  have hmid : ([d].filter (fun i => decide (i ∉ d :: rest))).map
      (fun i => b.getD i default) = [] := by simp
  have htailL : (((List.range k).map (fun j => d + j)).filter
      (fun i => decide (i ∉ rest))).map
      (fun i => (b.eraseIdx d).getD i default) =
      (List.range k).map (fun j => b.getD (d + 1 + j) default) := by
    rw [List.filter_eq_self.mpr ?_]
    · rw [List.map_map]
      apply List.map_congr_left
      intro j hj
      have hjk : j < k := List.mem_range.mp hj
      show (b.eraseIdx d).getD (d + j) default = b.getD (d + 1 + j) default
      have e1 : (b.eraseIdx d).getD (d + j) default =
          (b.drop (d + 1)).getD (d + j - (b.take d).length) default := by
        rw [List.eraseIdx_eq_take_drop_succ]
        exact List.getD_append_right _ _ _ _ (by omega)
      have e2 : (b.drop (d + 1)).getD j default = b.getD (d + 1 + j) default := by
        rw [List.getD_eq_getElem _ _ (show j < (b.drop (d + 1)).length by
            rw [List.length_drop]; omega),
          List.getD_eq_getElem _ _ (show d + 1 + j < b.length by omega),
          List.getElem_drop]
      rw [e1, hlenTake, Nat.add_sub_cancel_left, e2]
    · intro a ha
      obtain ⟨j, hj, rfl⟩ := List.mem_map.mp ha
      simp only [decide_eq_true_eq]
      intro hmem
      exact absurd (hrest _ hmem) (by omega)
  have htailR : (((List.range k).map (fun j => (d + 1) + j)).filter
      (fun i => decide (i ∉ d :: rest))).map
      (fun i => b.getD i default) =
      (List.range k).map (fun j => b.getD (d + 1 + j) default) := by
    rw [List.filter_eq_self.mpr ?_]
    · rw [List.map_map]
      apply List.map_congr_left
      intro j hj
      rfl
    · intro a ha
      obtain ⟨j, hj, rfl⟩ := List.mem_map.mp ha
      simp only [decide_eq_true_eq, List.mem_cons]
      intro hmem
      rcases hmem with h | h
      · omega
      · exact absurd (hrest _ h) (by omega)
  unfold keepOut
  rw [hsplitL, hsplitR, List.range_add, List.range_add, List.range_succ d]
  rw [List.filter_append, List.filter_append, List.filter_append,
    List.map_append, List.map_append, List.map_append]
  rw [hfront, hmid, htailL, htailR]
  simp

theorem foldl_eraseIdx_eq_keepOut (ds : List Nat) : ∀ b : List Transition,
    List.Pairwise (· > ·) ds → (∀ i ∈ ds, i < b.length) →
    ds.foldl (fun l i => l.eraseIdx i) b = keepOut b ds := by
  induction ds with
  | nil => intro b _ _; rw [List.foldl_nil]; exact (keepOut_nil b).symm
  | cons d rest ih =>
      intro b hp hlt
      have hd : d < b.length := hlt d (List.mem_cons_self _ _)
      have hrest : ∀ i ∈ rest, i < d := fun i hi => (List.pairwise_cons.mp hp).1 i hi
      have hlen1 : (b.eraseIdx d).length = b.length - 1 := by
        rw [List.length_eraseIdx]; simp [hd]
      rw [List.foldl_cons,
        ih (b.eraseIdx d) (List.pairwise_cons.mp hp).2
          (fun i hi => by have := hrest i hi; omega)]
      exact keepOut_cons_erase b d rest hd hrest

theorem foldl_eraseIdx_length (ds : List Nat) : ∀ b : List Transition,
    List.Pairwise (· > ·) ds → (∀ i ∈ ds, i < b.length) →
    (ds.foldl (fun l i => l.eraseIdx i) b).length = b.length - ds.length := by
  induction ds with
  | nil => intro b _ _; simp
  | cons d rest ih =>
      intro b hp hlt
      have hd : d < b.length := hlt d (List.mem_cons_self _ _)
      have hrest : ∀ i ∈ rest, i < d := fun i hi => (List.pairwise_cons.mp hp).1 i hi
      have hlen1 : (b.eraseIdx d).length = b.length - 1 := by
        rw [List.length_eraseIdx]; simp [hd]
      rw [List.foldl_cons,
        ih (b.eraseIdx d) (List.pairwise_cons.mp hp).2
          (fun i hi => by have := hrest i hi; omega), hlen1, List.length_cons]
      omega

theorem sortDescend_perm (l : List Nat) : List.Perm (sortDescend l) l :=
  List.perm_insertionSort _ l

theorem sortDescend_pairwise (l : List Nat) (hnd : l.Nodup) :
    List.Pairwise (· > ·) (sortDescend l) := by
  haveI h1 : IsTotal Nat (fun a b => b ≤ a) := ⟨fun a b => le_total b a⟩
  haveI h2 : IsTrans Nat (fun a b => b ≤ a) := ⟨fun a b c hab hbc => le_trans hbc hab⟩
  have hs : List.Pairwise (fun a b => b ≤ a) (sortDescend l) :=
    List.sorted_insertionSort _ l
  have hn : (sortDescend l).Nodup := ((sortDescend_perm l).symm).nodup hnd
  exact (hs.and hn).imp (fun hab => lt_of_le_of_ne hab.1 (Ne.symm hab.2))

theorem keepOut_congr (b : List Transition) (idxs idxs' : List Nat)
    (h : ∀ i, i ∈ idxs ↔ i ∈ idxs') : keepOut b idxs = keepOut b idxs' := by
  unfold keepOut
  congr 1
  apply List.filter_congr
  intro i _
  simp [h i]

/-! ## Helper lemmas: policies -/

theorem list_getD_map_lt {α β : Type} (f : α → β) (l : List α) (m : Nat)
    (hm : m < l.length) (d : β) (e : α) :
    (l.map f).getD m d = f (l.getD m e) := by
  rw [List.getD_eq_getElem _ _ (by simpa using hm),
    List.getD_eq_getElem _ _ hm, List.getElem_map]

theorem list_getD_range_lt (n m : Nat) (hm : m < n) (d : Nat) :
    (List.range n).getD m d = m := by
  rw [List.getD_eq_getElem _ _ (by simpa using hm)]
  exact List.getElem_range m (by simpa using hm)

theorem filter_range_mem_eq (valid : List Nat) (n : Nat)
    (hsort : List.Pairwise (· < ·) valid) (hrange : ∀ a ∈ valid, a < n) :
    (List.range n).filter (fun i => valid.contains i) = valid := by
  haveI : IsAntisymm Nat (· < ·) :=
    ⟨fun a b h1 h2 => absurd h2 (Nat.lt_asymm h1)⟩
  have hnd1 : ((List.range n).filter (fun i => valid.contains i)).Nodup :=
    (List.nodup_range n).filter _
  have hnd2 : valid.Nodup := hsort.imp (fun h => Nat.ne_of_lt h)
  have hperm : List.Perm ((List.range n).filter (fun i => valid.contains i))
      valid := by
    refine (List.perm_ext_iff_of_nodup hnd1 hnd2).mpr (fun a => ?_)
    simp only [List.mem_filter, List.mem_range]
    constructor
    · intro h
      have h2 := h.2
      simpa using h2
    · intro h
      exact ⟨hrange a h, by simpa using h⟩
  have hs1 : List.Pairwise (· < ·)
      ((List.range n).filter (fun i => valid.contains i)) :=
    (List.pairwise_lt_range n).filter _
  exact List.eq_of_perm_of_sorted hperm hs1 hsort

theorem bucketAt_foldl_high (l : List GameState) : ∀ t : HashGrid, WFGrid t →
    ∀ r c : Nat, 10 ≤ r ∨ 10 ≤ c →
      bucketAt (l.foldl InsertHashTable t) r c = bucketAt t r c := by
  induction l with
  | nil => intro t _ r c _; rfl
  | cons s rest ih =>
      intro t hWF r c hrc
      rw [List.foldl_cons, ih _ (WFGrid_insert t hWF s) r c hrc,
        bucketAt_InsertHashTable t hWF s r c]
      have hno : ¬(rowOf (Gethash s) = r ∧ colOf (Gethash s) = c) := by
        rintro ⟨h1, h2⟩
        rcases hrc with h | h
        · have := rowOf_lt (Gethash s); omega
        · have := colOf_lt (Gethash s); omega
      rw [if_neg hno]

/-! ## Helper lemmas: replay buffer insertion -/

theorem insertBuffer_length {W : Type} (d : DQN W) (tr : Transition) :
    (InsertBuffer d tr).replay_buffer.length =
      if d.maxBufferSize < d.replay_buffer.length
      then d.replay_buffer.length else d.replay_buffer.length + 1 := by
  by_cases h : d.maxBufferSize < d.replay_buffer.length
  · rw [if_pos h]
    simp only [InsertBuffer, if_pos h, List.length_append, List.length_tail,
      List.length_cons, List.length_nil]
    omega
  · rw [if_neg h]
    simp only [InsertBuffer, if_neg h, List.length_append, List.length_cons,
      List.length_nil]

theorem insertBuffer_max {W : Type} (d : DQN W) (tr : Transition) :
    (InsertBuffer d tr).maxBufferSize = d.maxBufferSize := rfl

theorem insertBuffer_foldl_length {W : Type} (trs : List Transition) :
    ∀ d : DQN W, d.replay_buffer.length ≤ d.maxBufferSize + 1 →
      (trs.foldl InsertBuffer d).replay_buffer.length =
        min (d.replay_buffer.length + trs.length) (d.maxBufferSize + 1) := by
  induction trs with
  | nil =>
      intro d hle
      simp only [List.foldl_nil, List.length_nil, Nat.add_zero]
      omega
  | cons tr rest ih =>
      intro d hle
      have hbound : (InsertBuffer d tr).replay_buffer.length ≤
          (InsertBuffer d tr).maxBufferSize + 1 := by
        rw [insertBuffer_length, insertBuffer_max]
        by_cases h : d.maxBufferSize < d.replay_buffer.length
        · rw [if_pos h]; omega
        · rw [if_neg h]; omega
      rw [List.foldl_cons, ih (InsertBuffer d tr) hbound, insertBuffer_length,
        insertBuffer_max, List.length_cons]
      by_cases h : d.maxBufferSize < d.replay_buffer.length
      · rw [if_pos h]; omega
      · rw [if_neg h]; omega

/-! ## The claims -/

/-- C2: each `InsertBuffer` call evicts at most one element, from the front,
exactly when the current size strictly exceeds `maxBufferSize`; consequently
`maximum + 5` sequential inserts into an initially empty buffer leave exactly
`maximum + 1` entries. -/
theorem claim_insertBuffer {W : Type} :
    (∀ (d : DQN W) (tr : Transition),
      (d.maxBufferSize < d.replay_buffer.length →
        (InsertBuffer d tr).replay_buffer = d.replay_buffer.tail ++ [tr] ∧
        (InsertBuffer d tr).replay_buffer.length = d.replay_buffer.length) ∧
      (¬ d.maxBufferSize < d.replay_buffer.length →
        (InsertBuffer d tr).replay_buffer = d.replay_buffer ++ [tr] ∧
        (InsertBuffer d tr).replay_buffer.length =
          d.replay_buffer.length + 1)) ∧
    ∀ (d : DQN W) (trs : List Transition), d.replay_buffer = [] →
      trs.length = d.maxBufferSize + 5 →
      (trs.foldl InsertBuffer d).replay_buffer.length = d.maxBufferSize + 1 := by
  constructor
  · intro d tr
    constructor
    · intro h
      refine ⟨by simp [InsertBuffer, h], ?_⟩
      rw [insertBuffer_length, if_pos h]
    · intro h
      refine ⟨by simp [InsertBuffer, h], ?_⟩
      rw [insertBuffer_length, if_neg h]
  · intro d trs hempty hlen
    rw [insertBuffer_foldl_length trs d (by rw [hempty]; simp), hempty, hlen]
    simp only [List.length_nil, Nat.zero_add]
    omega

/-- Witness for the buffer claim: `maximum = 2`, 7 inserts leave size 3, and
an insert below capacity appends without eviction. -/
theorem claim_insertBuffer_witness :
    ((List.replicate 7 (default : Transition)).foldl InsertBuffer
      (⟨128, 99 / 100, 2, initHashtable, [], (), ()⟩ : DQN Unit)).replay_buffer.length = 3 :=
  (claim_insertBuffer).2 _ _ rfl rfl

/-- C4: a training step on a buffer holding fewer than `batch_size`
transitions returns no loss and leaves the whole agent state (buffer,
visit-count table, both networks) unchanged. -/
theorem claim_train_noop {W : Type} (predict : W → GameState → Int → List ℚ)
    (fit : W → List Transition → List (List ℚ) → W × ℚ) (dqn : DQN W)
    (minibatch_indices : List Nat)
    (h : dqn.replay_buffer.length < dqn.batch_size) :
    train predict fit dqn minibatch_indices = (dqn, none) := by
  unfold train
  rw [if_pos h]

/-- Witness for the training no-op claim on an empty buffer with
`batch_size = 1`. -/
theorem claim_train_noop_witness :
    train (fun (_ : Unit) _ _ => []) (fun w _ _ => (w, 0))
      (⟨1, 99 / 100, 10, initHashtable, [], (), ()⟩ : DQN Unit) [] =
      ((⟨1, 99 / 100, 10, initHashtable, [], (), ()⟩ : DQN Unit), none) :=
  claim_train_noop _ _ _ _ (by decide)

/-- C5: the visit count of `s` equals the number of `record` calls on states
with `s`'s fingerprint (a fresh table reads 0 for every state), and each
record of a same-fingerprint state increments the stored count by exactly 1,
starting at 1 when absent; `GetCount` itself performs no mutation (it is a
pure function of the table). -/
theorem claim_getCount_invariant :
    (∀ (l : List GameState) (s : GameState),
      GetCount (l.foldl InsertHashTable initHashtable) s =
        (l.filter (fun s' => Gethash s' == Gethash s)).length) ∧
    ∀ (t : HashGrid) (s' s : GameState), WFGrid t → Gethash s' = Gethash s →
      GetCount (InsertHashTable t s') s = GetCount t s + 1 := by
  constructor
  · intro l s
    rw [GetCount_foldl l initHashtable WFGrid_init s, GetCount_init]
    omega
  · intro t s' s hWF heq
    rw [GetCount_InsertHashTable t hWF s' s, if_pos heq]

/-- Witness for the visit-count claim: one record of `[[0]]` on the fresh
table raises its count from 0 by exactly 1. -/
theorem claim_getCount_invariant_witness :
    GetCount (InsertHashTable initHashtable [[0]]) [[0]] =
      GetCount initHashtable [[0]] + 1 :=
  claim_getCount_invariant.2 initHashtable [[0]] [[0]] WFGrid_init rfl

/-- C8 counterexample: on a concrete 8x8 board the fingerprint differs from
the digest of the cell-concatenation serialization described by the spec
(the code serializes whole rows, brackets and spaces included). -/
theorem claim_gethash_cex :
    Gethash (List.replicate 8 [0, 1, 0, 1, 0, 1, 0, 1]) ≠
      md5hex (specCellConcat (List.replicate 8 [0, 1, 0, 1, 0, 1, 0, 1])) := by
  decide

/-- C8 amended: the fingerprint is the MD5 hex digest of the concatenation of
the rows' numpy string renderings, in row order, with no additional
separator between rows. -/
theorem claim_gethash_amended (state : GameState) :
    Gethash state = md5hex (amendedSerial state) := by
  unfold Gethash amendedSerial combinedString String.join
  rw [List.foldl_map]

/-- C9: the bucket row and column derived from any fingerprint lie in [0, 9]
(hence within the 15x15 grid), `GetCount` reads only that bucket, and buckets
with row or column in [10, 14] are never written: they stay empty after any
sequence of records on the freshly initialized table. -/
theorem claim_bucket_bounds :
    (∀ h : String, rowOf h < 10 ∧ colOf h < 10) ∧
    (∀ (t : HashGrid) (s : GameState),
      GetCount t s = countInBucket
        (bucketAt t (rowOf (Gethash s)) (colOf (Gethash s))) (Gethash s)) ∧
    ∀ (l : List GameState) (r c : Nat), 10 ≤ r ∨ 10 ≤ c →
      bucketAt (l.foldl InsertHashTable initHashtable) r c = [] := by
  refine ⟨fun h => ⟨rowOf_lt h, colOf_lt h⟩, fun t s => rfl, ?_⟩
  intro l r c hrc
  rw [bucketAt_foldl_high l initHashtable WFGrid_init r c hrc, bucketAt_init]

/-- Witness for the bucket-bounds claim: bucket (12, 3) is untouched after a
record, and a concrete fingerprint maps into [0, 9]. -/
theorem claim_bucket_bounds_witness :
    rowOf "ff" < 10 ∧
    bucketAt ([[[(0 : Int)]]].foldl InsertHashTable initHashtable) 12 3 = [] :=
  ⟨(claim_bucket_bounds.1 "ff").1,
    claim_bucket_bounds.2.2 [[[(0 : Int)]]] 12 3 (Or.inl (by decide))⟩

/-- C1: each row of the training target matrix starts as the online network's
prediction on the transition's (state, turn) and only the acted-on slot is
overwritten: with `reward/100` exactly when done, else with `reward/100 +
gamma * max(bootstrap over the legal actions at the next state)`, where the
bootstrap row is the target network's prediction on the next state reusing
the transition's own turn value. -/
theorem claim_trainTargets {W : Type} (predict : W → GameState → Int → List ℚ)
    (dqn : DQN W) (minibatch : List Transition) (i : Nat) (tr : Transition)
    (hi : i < minibatch.length) (htr : minibatch.getD i default = tr)
    (ha : tr.action < (predict dqn.modelW tr.state tr.turn).length)
    (hva : tr.valid_actions ≠ []) :
    ((trainTargets predict dqn minibatch).getD i []).length =
      (predict dqn.modelW tr.state tr.turn).length ∧
    (∀ j, j ≠ tr.action →
      ((trainTargets predict dqn minibatch).getD i []).getD j 0 =
        (predict dqn.modelW tr.state tr.turn).getD j 0) ∧
    (tr.done = true →
      ((trainTargets predict dqn minibatch).getD i []).getD tr.action 0 =
        tr.reward / 100) ∧
    (tr.done = false →
      ∃ a ∈ tr.valid_actions,
        ((trainTargets predict dqn minibatch).getD i []).getD tr.action 0 =
          tr.reward / 100 + dqn.gamma *
            (predict dqn.targetW tr.next_state tr.turn).getD a 0 ∧
        ∀ b ∈ tr.valid_actions,
          (predict dqn.targetW tr.next_state tr.turn).getD b 0 ≤
            (predict dqn.targetW tr.next_state tr.turn).getD a 0) := by
  have hrow : (trainTargets predict dqn minibatch).getD i [] =
      bellmanTarget dqn.gamma (predict dqn.modelW tr.state tr.turn)
        (predict dqn.targetW tr.next_state tr.turn) tr := by
    unfold trainTargets
    rw [list_getD_map_lt _ _ i hi [] default, htr]
  rw [hrow]
  unfold bellmanTarget
  by_cases hdone : tr.done = true
  · rw [if_pos hdone]
    refine ⟨List.length_set _ _ _, ?_, ?_, ?_⟩
    · intro j hj
      exact list_getD_set_ne _ _ _ (fun hh => hj hh.symm)
    · intro _
      exact list_getD_set_self _ _ _ _ ha
    · intro hfalse
      rw [hdone] at hfalse
      exact absurd hfalse (by simp)
  · rw [if_neg hdone]
    refine ⟨List.length_set _ _ _, ?_, ?_, ?_⟩
    · intro j hj
      exact list_getD_set_ne _ _ _ (fun hh => hj hh.symm)
    · intro htrue
      exact absurd htrue hdone
    · intro _
      obtain ⟨hmem, hmax⟩ := np_amax_spec
        (tr.valid_actions.map (fun a =>
          (predict dqn.targetW tr.next_state tr.turn).getD a 0))
        (by intro hcon; exact hva (List.map_eq_nil_iff.mp hcon))
      obtain ⟨a, hamem, haeq⟩ := List.mem_map.mp hmem
      refine ⟨a, hamem, ?_, ?_⟩
      · rw [list_getD_set_self _ _ _ _ ha, ← haeq]
      · intro b hbmem
        rw [haeq]
        exact hmax _ (List.mem_map_of_mem _ hbmem)

/-- Witness for the target-matrix claim: a done transition with reward 250
yields target slot exactly 2.5 = 250/100. -/
theorem claim_trainTargets_witness :
    ((trainTargets (fun (_ : Unit) _ _ => [(0 : ℚ), 0])
        (⟨1, 99 / 100, 10, initHashtable, [], (), ()⟩ : DQN Unit)
        [⟨[[0]], 1, 250, [[0]], true, [0], 1⟩]).getD 0 []).getD 1 0 =
      250 / 100 :=
  (claim_trainTargets (fun (_ : Unit) _ _ => [(0 : ℚ), 0])
    (⟨1, 99 / 100, 10, initHashtable, [], (), ()⟩ : DQN Unit)
    [⟨[[0]], 1, 250, [[0]], true, [0], 1⟩] 0 ⟨[[0]], 1, 250, [[0]], true, [0], 1⟩
    (by decide) rfl (by decide) (by decide)).2.2.1 rfl

/-- C3: a training step on a buffer with at least `batch_size` transitions,
with a drawn index list that is duplicate-free, in range and of length
`batch_size` (the guarantees of `random.sample`), removes exactly the sampled
entries (deleting indices in descending order), so the buffer shrinks by
exactly `batch_size`, the survivors are the unsampled transitions in their
original relative order, and the minibatch lists the sampled transitions in
their sampled order. -/
theorem claim_train_consumes {W : Type} (predict : W → GameState → Int → List ℚ)
    (fit : W → List Transition → List (List ℚ) → W × ℚ) (dqn : DQN W)
    (minibatch_indices : List Nat)
    (hge : dqn.batch_size ≤ dqn.replay_buffer.length)
    (hnd : minibatch_indices.Nodup)
    (hlt : ∀ i ∈ minibatch_indices, i < dqn.replay_buffer.length)
    (hlen : minibatch_indices.length = dqn.batch_size) :
    (train predict fit dqn minibatch_indices).1.replay_buffer =
      keepOut dqn.replay_buffer minibatch_indices ∧
    (train predict fit dqn minibatch_indices).1.replay_buffer.length =
      dqn.replay_buffer.length - dqn.batch_size ∧
    minibatchOf dqn minibatch_indices =
      minibatch_indices.map (fun i => dqn.replay_buffer.getD i default) := by
  have hnotlt : ¬ dqn.replay_buffer.length < dqn.batch_size := not_lt.mpr hge
  have htrain : (train predict fit dqn minibatch_indices).1.replay_buffer =
      deleteIndices dqn.replay_buffer minibatch_indices := by
    unfold train
    rw [if_neg hnotlt]
  have hpair := sortDescend_pairwise minibatch_indices hnd
  have hmem : ∀ i ∈ sortDescend minibatch_indices,
      i < dqn.replay_buffer.length :=
    fun i hi => hlt i ((sortDescend_perm minibatch_indices).mem_iff.mp hi)
  refine ⟨?_, ?_, rfl⟩
  · rw [htrain]
    unfold deleteIndices
    rw [foldl_eraseIdx_eq_keepOut _ _ hpair hmem]
    exact keepOut_congr _ _ _
      (fun i => (sortDescend_perm minibatch_indices).mem_iff)
  · rw [htrain]
    unfold deleteIndices
    rw [foldl_eraseIdx_length _ _ hpair hmem,
      (sortDescend_perm minibatch_indices).length_eq, hlen]

/-- Witness for the destructive-sampling claim: a 2-element buffer with
`batch_size = 1` loses exactly the sampled entry. -/
theorem claim_train_consumes_witness :
    (train (fun (_ : Unit) _ _ => []) (fun w _ _ => (w, 0))
        (⟨1, 99 / 100, 10, initHashtable,
          [⟨[[0]], 0, 0, [[0]], true, [0], 1⟩,
           ⟨[[1]], 0, 0, [[1]], true, [0], 1⟩], (), ()⟩ : DQN Unit)
        [0]).1.replay_buffer.length = 1 :=
  (claim_train_consumes (fun (_ : Unit) _ _ => []) (fun w _ _ => (w, 0))
    (⟨1, 99 / 100, 10, initHashtable,
      [⟨[[0]], 0, 0, [[0]], true, [0], 1⟩,
       ⟨[[1]], 0, 0, [[1]], true, [0], 1⟩], (), ()⟩ : DQN Unit)
    [0] (by decide) (by decide) (by decide) rfl).2.1

theorem np_argmax_lt {α : Type} [LinearOrder α] (l : List α) (h : l ≠ []) :
    np_argmax l < l.length := by
  match l with
  | x :: xs => exact (np_argmax_spec (x :: xs) x (by simp)).1

theorem behaviorPolicy_eq (tnet : GameState → Int → List ℝ)
    (simulateNextState : Nat → GameState) (t : HashGrid) (state : GameState)
    (turn : Int) (valid_action : List Nat) (r : Nat) :
    BehaviorPolicy tnet simulateNextState t state turn valid_action r =
      if (valid_action.map (fun a => GetCount t (simulateNextState a))).sum = 0
      then valid_action.getD (r % valid_action.length) 0
      else valid_action.getD (np_argmax
        ((List.range valid_action.length).map (fun i =>
          (valid_action.map (fun a => (tnet state turn).getD a 0)).getD i 0 +
            Real.sqrt (2 * Real.log
              (((valid_action.map (fun a =>
                GetCount t (simulateNextState a))).sum : ℝ)) /
              (1 + ((valid_action.map (fun a =>
                GetCount t (simulateNextState a))).getD i 0 : ℝ)))))) 0 := rfl

theorem estimatePolicy_eq (tnet : GameState → Int → List ℚ) (state : GameState)
    (turn : Int) (valid_action : List Nat) :
    EstimatePolicy tnet state turn valid_action =
      valid_action.getD (np_argmax
        (((List.range (tnet state turn).length).filter
          (fun i => valid_action.contains i)).map
          (fun i => (tnet state turn).getD i 0))) 0 := rfl

/-- C6: with a zero total visit count over the simulated next states, the
behavior policy picks uniformly among the legal actions (the j-th draw of
`random.choice` returns the j-th legal action); with a nonzero total count it
returns the legal action with the maximal UCT score
`value_estimate + sqrt(2*ln(total)/(1+count))`, the first occurrence winning
ties. -/
theorem claim_behaviorPolicy (tnet : GameState → Int → List ℝ)
    (simulateNextState : Nat → GameState) (t : HashGrid) (state : GameState)
    (turn : Int) (valid_action : List Nat) (r : Nat)
    (hne : valid_action ≠ []) :
    ((valid_action.map (fun a => GetCount t (simulateNextState a))).sum = 0 →
      ∀ j, j < valid_action.length →
        BehaviorPolicy tnet simulateNextState t state turn valid_action j =
          valid_action.getD j 0) ∧
    ((valid_action.map (fun a => GetCount t (simulateNextState a))).sum ≠ 0 →
      ∃ j, j < valid_action.length ∧
        BehaviorPolicy tnet simulateNextState t state turn valid_action r =
          valid_action.getD j 0 ∧
        (∀ m, m < valid_action.length →
          uctScore tnet simulateNextState t state turn valid_action m ≤
            uctScore tnet simulateNextState t state turn valid_action j) ∧
        ∀ m, m < j →
          uctScore tnet simulateNextState t state turn valid_action m <
            uctScore tnet simulateNextState t state turn valid_action j) := by
  have hpos : 0 < valid_action.length := List.length_pos.mpr hne
  constructor
  · intro hzero j hj
    rw [behaviorPolicy_eq, if_pos hzero, Nat.mod_eq_of_lt hj]
  · intro hnz
    obtain ⟨uct, huct⟩ : ∃ l : List ℝ,
        l = (List.range valid_action.length).map (fun i =>
          (valid_action.map (fun a => (tnet state turn).getD a 0)).getD i 0 +
            Real.sqrt (2 * Real.log
              (((valid_action.map (fun a =>
                GetCount t (simulateNextState a))).sum : ℝ)) /
              (1 + ((valid_action.map (fun a =>
                GetCount t (simulateNextState a))).getD i 0 : ℝ)))) := ⟨_, rfl⟩
    have hlen : uct.length = valid_action.length := by rw [huct]; simp
    have hne2 : uct ≠ [] := by
      apply List.ne_nil_of_length_pos
      rw [hlen]; exact hpos
    have key : ∀ m, m < valid_action.length →
        uct.getD m 0 =
          uctScore tnet simulateNextState t state turn valid_action m := by
      intro m hm
      rw [huct, list_getD_map_lt _ _ m (by simpa using hm) 0 0,
        list_getD_range_lt _ m hm 0]
      unfold uctScore
      rw [list_getD_map_lt _ _ m hm 0 0, list_getD_map_lt _ _ m hm 0 0]
    obtain ⟨h1, h2, h3⟩ := np_argmax_spec uct 0 hne2
    rw [hlen] at h1
    refine ⟨np_argmax uct, h1, ?_, ?_, ?_⟩
    · rw [behaviorPolicy_eq, if_neg hnz, ← huct]
    · intro m hm
      rw [← key m hm, ← key (np_argmax uct) h1]
      exact h2 m (by rw [hlen]; exact hm)
    · intro m hm
      have hmlen : m < valid_action.length := lt_trans hm h1
      rw [← key m hmlen, ← key (np_argmax uct) h1]
      exact h3 m hm

/-- Witness for the behavior policy claim: with a fresh table (all counts 0)
and one legal action, draw 0 selects it. -/
theorem claim_behaviorPolicy_witness :
    BehaviorPolicy (fun _ _ => [(0 : ℝ)]) (fun _ => [[0]]) initHashtable
      [[0]] 1 [0] 0 = 0 := by
  have h := (claim_behaviorPolicy (fun _ _ => [(0 : ℝ)]) (fun _ => [[0]])
    initHashtable [[0]] 1 [0] 0 (by decide)).1 (by decide) 0 (by decide)
  simpa using h

/-- C7 counterexample: with value vector `[0.1, 0.9, 0.3]` and legal actions
`[2, 0]` (not sorted ascending), `EstimatePolicy` returns action 0 even
though legal action 2 has the larger estimate — boolean-mask compression
yields values in index order, misaligned with the unsorted legal-action
list. -/
theorem claim_estimatePolicy_cex :
    EstimatePolicy cexNet [] 0 [2, 0] = 0 ∧
    (2 : Nat) ∈ ([2, 0] : List Nat) ∧
    (cexNet [] 0).getD 0 0 < (cexNet [] 0).getD 2 0 := by
  refine ⟨?_, by decide, by norm_num [cexNet]⟩
  rw [estimatePolicy_eq]
  have hfil : (List.range (cexNet [] 0).length).filter
      (fun i => ([2, 0] : List Nat).contains i) = [0, 2] := by decide
  rw [hfil]
  have hm : ([0, 2] : List Nat).map (fun i => (cexNet [] 0).getD i 0) =
      [1 / 10, 3 / 10] := by norm_num [cexNet]
  rw [hm]
  have harg : np_argmax [(1 : ℚ) / 10, 3 / 10] = 1 := by
    simp only [np_argmax, List.getD_cons_zero]
    norm_num
  rw [harg]
  rfl

/-- C7 amended: provided the legal-action list is strictly increasing (sorted
ascending, duplicate-free) and within the action-vector bounds, the estimate
policy returns the legal action with maximal value estimate, the first
occurrence winning ties. -/
theorem claim_estimatePolicy_sorted (tnet : GameState → Int → List ℚ)
    (state : GameState) (turn : Int) (valid_action : List Nat)
    (hne : valid_action ≠ [])
    (hsort : List.Pairwise (· < ·) valid_action)
    (hrange : ∀ a ∈ valid_action, a < (tnet state turn).length) :
    ∃ j, j < valid_action.length ∧
      EstimatePolicy tnet state turn valid_action = valid_action.getD j 0 ∧
      (∀ m, m < valid_action.length →
        (tnet state turn).getD (valid_action.getD m 0) 0 ≤
          (tnet state turn).getD (valid_action.getD j 0) 0) ∧
      ∀ m, m < j →
        (tnet state turn).getD (valid_action.getD m 0) 0 <
          (tnet state turn).getD (valid_action.getD j 0) 0 := by
  have hfil : (List.range (tnet state turn).length).filter
      (fun i => valid_action.contains i) = valid_action :=
    filter_range_mem_eq valid_action _ hsort hrange
  have hmasked : valid_action.map (fun i => (tnet state turn).getD i 0) ≠ [] :=
    fun hcon => hne (List.map_eq_nil_iff.mp hcon)
  obtain ⟨h1, h2, h3⟩ := np_argmax_spec
    (valid_action.map (fun i => (tnet state turn).getD i 0)) 0 hmasked
  rw [List.length_map] at h1
  have key : ∀ m, m < valid_action.length →
      (valid_action.map (fun i => (tnet state turn).getD i 0)).getD m 0 =
        (tnet state turn).getD (valid_action.getD m 0) 0 :=
    fun m hm => list_getD_map_lt _ _ m hm 0 0
  refine ⟨np_argmax (valid_action.map (fun i => (tnet state turn).getD i 0)),
    h1, ?_, ?_, ?_⟩
  · rw [estimatePolicy_eq, hfil]
  · intro m hm
    rw [← key m hm, ← key _ h1]
    exact h2 m (by rw [List.length_map]; exact hm)
  · intro m hm
    have hmlen : m < valid_action.length := lt_trans hm h1
    rw [← key m hmlen, ← key _ h1]
    exact h3 m hm

/-- Witness for the amended estimate-policy claim: with the sorted legal list
`[0, 2]` and values `[0.1, 0.9, 0.3]` the returned action is legal. -/
theorem claim_estimatePolicy_sorted_witness :
    EstimatePolicy cexNet [] 0 [0, 2] ∈ ([0, 2] : List Nat) := by
  obtain ⟨j, hj, heq, _, _⟩ := claim_estimatePolicy_sorted cexNet [] 0
    [0, 2] (by decide) (by decide) (by decide)
  rw [heq, List.getD_eq_getElem _ _ hj]
  exact List.getElem_mem hj

/-- C10: for every nonempty legal-action list (with entries inside the
action-value vector), both policy selectors return an element of the
legal-action list. -/
theorem claim_policies_legal (tnetB : GameState → Int → List ℝ)
    (tnetE : GameState → Int → List ℚ) (simulateNextState : Nat → GameState)
    (t : HashGrid) (state : GameState) (turn : Int) (valid_action : List Nat)
    (r : Nat) (hne : valid_action ≠ [])
    (hrange : ∀ a ∈ valid_action, a < (tnetE state turn).length) :
    BehaviorPolicy tnetB simulateNextState t state turn valid_action r ∈
      valid_action ∧
    EstimatePolicy tnetE state turn valid_action ∈ valid_action := by
  have hpos : 0 < valid_action.length := List.length_pos.mpr hne
  have hgetD : ∀ j, j < valid_action.length →
      valid_action.getD j 0 ∈ valid_action := by
    intro j hj
    rw [List.getD_eq_getElem _ _ hj]
    exact List.getElem_mem hj
  constructor
  · rw [behaviorPolicy_eq]
    by_cases hz : (valid_action.map
        (fun a => GetCount t (simulateNextState a))).sum = 0
    · rw [if_pos hz]
      exact hgetD _ (Nat.mod_lt _ hpos)
    · rw [if_neg hz]
      exact hgetD _ (lt_of_lt_of_eq (np_argmax_lt _
        (List.ne_nil_of_length_pos (by simpa using hpos))) (by simp))
  · rw [estimatePolicy_eq]
    apply hgetD
    have hsub : ((List.range (tnetE state turn).length).filter
        (fun i => valid_action.contains i)).length ≤ valid_action.length := by
      apply List.Subperm.length_le
      apply List.Nodup.subperm ((List.nodup_range _).filter _)
      intro a ha
      have h2 := (List.mem_filter.mp ha).2
      simpa using h2
    have hnonempty : (((List.range (tnetE state turn).length).filter
        (fun i => valid_action.contains i)).map
        (fun i => (tnetE state turn).getD i 0)) ≠ [] := by
      match valid_action, hne with
      | a :: rest, _ =>
          apply List.ne_nil_of_mem
          apply List.mem_map_of_mem
          apply List.mem_filter.mpr
          refine ⟨List.mem_range.mpr (hrange a (List.mem_cons_self _ _)), ?_⟩
          simp
    calc np_argmax (((List.range (tnetE state turn).length).filter
          (fun i => valid_action.contains i)).map
          (fun i => (tnetE state turn).getD i 0)) <
        (((List.range (tnetE state turn).length).filter
          (fun i => valid_action.contains i)).map
          (fun i => (tnetE state turn).getD i 0)).length :=
          np_argmax_lt _ hnonempty
      _ ≤ valid_action.length := by
          rw [List.length_map]
          exact hsub

/-- Witness for the legality claim: both policies pick the single legal
action 0. -/
theorem claim_policies_legal_witness :
    BehaviorPolicy (fun _ _ => [(0 : ℝ)]) (fun _ => [[0]]) initHashtable
      [[0]] 1 [0] 0 ∈ ([0] : List Nat) ∧
    EstimatePolicy (fun _ _ => [(0 : ℚ)]) [[0]] 1 [0] ∈ ([0] : List Nat) :=
  claim_policies_legal (fun _ _ => [(0 : ℝ)]) (fun _ _ => [(0 : ℚ)])
    (fun _ => [[0]]) initHashtable [[0]] 1 [0] 0 (by decide) (by decide)
